import Mathlib

set_option linter.unusedSectionVars false
set_option linter.unusedVariables false

/-!
Verification of the EPyColl library (src/sets.py, src/mapping.py) against its
natural-language specification.

The Python classes are shallowly embedded:

* `SortedListSet` (sets.py) becomes a structure holding the backing list
  `_list` and the counter `modCount`; the read-only key function `_key` is
  passed as an explicit parameter `key : α → κ` into every operation, with
  `κ` any linear order (Python key comparisons use `==`, `>`, `<=`).
* Methods that can raise become `Option`/`Except`-valued functions; methods
  whose indexing is provably in range carry the range proof.
* `OneToOneMap` (mapping.py) becomes a pair of association lists modelling
  the two backing `dict`s `_forward` and `_reverse`; the peer object of the
  source is determined by those two stores (its `_forward` is this object's
  `_reverse` and vice versa), so `reverse` swaps the stores.
-/

section SortedListSetModel

variable {α : Type} {κ : Type} [DecidableEq α] [LinearOrder κ]

/-- State of a `SortedListSet` (sets.py): the backing `_list` and `modCount`.
The key function `_key` is fixed at construction (read-only per
`_readOnlyAttr`) and is passed to each operation as a parameter. -/
structure SortedListSet (α : Type) where
  list : List α
  modCount : Nat
deriving DecidableEq, Repr

/-- The binary-search loop of `SortedListSet._pos` (sets.py lines 190-200):
`while from_ < to_: at = (from_+to_)>>1; pivot = key(list[at]);`
return `at` on an equal key, else narrow to `[from_, at)` or `[at+1, to_)`;
return `from_` when the range is empty. `k` is the precomputed
`self._key(x)`. The bound `ht` discharges the list indexing. -/
def SortedListSet.posAux (key : α → κ) (k : κ) (l : List α) (f t : Nat)
    (ht : t ≤ l.length) : Nat :=
  if hf : f < t then
    if key (l.get ⟨(f + t) / 2, by omega⟩) = k then (f + t) / 2
    else if k < key (l.get ⟨(f + t) / 2, by omega⟩) then
      SortedListSet.posAux key k l f ((f + t) / 2) (by omega)
    else
      SortedListSet.posAux key k l ((f + t) / 2 + 1) t ht
  else f
termination_by t - f
decreasing_by
  all_goals omega

/-- `SortedListSet._pos(x)` with the default bounds `from_ = 0`,
`to_ = len(self._list)` (the only way the source calls it). -/
def SortedListSet.pos (key : α → κ) (l : List α) (x : α) : Nat :=
  SortedListSet.posAux key (key x) l 0 l.length (le_refl _)

/-- `SortedListSet.__contains__` (sets.py lines 202-204):
`at = self._pos(x); return len(self._list) > at and self._list[at] == x`. -/
def SortedListSet.contains (key : α → κ) (l : List α) (x : α) : Bool :=
  if h : SortedListSet.pos key l x < l.length then
    decide (l.get ⟨SortedListSet.pos key l x, h⟩ = x)
  else false

/-- `SortedListSet.add` (sets.py lines 206-217).  Note that the source's
append branch (`len(self._list) <= at`) does not touch `modCount`; the
replace and insert branches do `self.modCount += 1`.  `list.insert(at, v)`
is `take at ++ v :: drop at`. -/
def SortedListSet.add (key : α → κ) (s : SortedListSet α) (v : α) :
    SortedListSet α :=
  if s.list.length ≤ SortedListSet.pos key s.list v then
    { s with list := s.list ++ [v] }
  else if key v = key (s.list.getD (SortedListSet.pos key s.list v) v) then
    if s.list.getD (SortedListSet.pos key s.list v) v = v then s
    else { list := s.list.set (SortedListSet.pos key s.list v) v,
           modCount := s.modCount + 1 }
  else { list := s.list.take (SortedListSet.pos key s.list v) ++
                 v :: s.list.drop (SortedListSet.pos key s.list v),
         modCount := s.modCount + 1 }

/-- `SortedListSet.discard` (sets.py lines 219-223):
`at = self._pos(value); if len(self._list) > at and self._list[at] == value:
self.modCount += 1; del self._list[at]`. -/
def SortedListSet.discard (key : α → κ) (s : SortedListSet α) (v : α) :
    SortedListSet α :=
  if SortedListSet.pos key s.list v < s.list.length ∧
      s.list.getD (SortedListSet.pos key s.list v) v = v then
    { list := s.list.eraseIdx (SortedListSet.pos key s.list v),
      modCount := s.modCount + 1 }
  else s

end SortedListSetModel

section SortedListSetProofs

variable {α : Type} {κ : Type} [DecidableEq α] [LinearOrder κ]

/-- Strict-ascending-key invariant of the backing list (`spec.md` §3:
"sorted by key at all times; no duplicate keys"). -/
def KeySorted (key : α → κ) (l : List α) : Prop :=
  l.Pairwise fun a b => key a < key b

theorem posAux_le (key : α → κ) (k : κ) (l : List α) (f t : Nat)
    (ht : t ≤ l.length) (hft : f ≤ t) :
    SortedListSet.posAux key k l f t ht ≤ t := by
  rw [SortedListSet.posAux]
  split
  · split
    · omega
    · split
      · exact le_trans (posAux_le key k l f ((f + t) / 2) (by omega) (by omega))
          (by omega)
      · exact posAux_le key k l ((f + t) / 2 + 1) t ht (by omega)
  · exact hft
termination_by t - f
decreasing_by
  all_goals omega

/-- Lower-bound characterization of the binary search on a strictly
key-sorted list: everything left of the returned position has key smaller
than the query key, nothing at or right of it does. -/
theorem posAux_spec (key : α → κ) (k : κ) (l : List α) (f t : Nat)
    (ht : t ≤ l.length) (hs : KeySorted key l)
    (hlo : ∀ j, (hj : j < l.length) → j < f → key (l.get ⟨j, hj⟩) < k)
    (hhi : ∀ j, (hj : j < l.length) → t ≤ j → ¬ key (l.get ⟨j, hj⟩) < k) :
    (∀ j, (hj : j < l.length) → j < SortedListSet.posAux key k l f t ht →
      key (l.get ⟨j, hj⟩) < k) ∧
    (∀ j, (hj : j < l.length) → SortedListSet.posAux key k l f t ht ≤ j →
      ¬ key (l.get ⟨j, hj⟩) < k) := by
  have hp := List.pairwise_iff_get.mp hs
  rw [SortedListSet.posAux]
  split
  · rename_i hf
    have hm : (f + t) / 2 < l.length := by omega
    split
    · rename_i heq
      constructor
      · intro j hj hjm
        exact heq ▸ hp ⟨j, hj⟩ ⟨(f + t) / 2, hm⟩ hjm
      · intro j hj hjm
        rcases Nat.eq_or_lt_of_le hjm with h | h
        · have hfin : (⟨j, hj⟩ : Fin l.length) = ⟨(f + t) / 2, hm⟩ :=
            by rw [Fin.mk.injEq]; omega
          rw [hfin, heq]
          exact lt_irrefl k
        · have := hp ⟨(f + t) / 2, hm⟩ ⟨j, hj⟩ h
          rw [heq] at this
          exact not_lt_of_gt this
    · rename_i hne
      split
      · rename_i hkp
        refine posAux_spec key k l f ((f + t) / 2) (by omega) hs hlo ?_
        intro j hj hmj
        rcases Nat.eq_or_lt_of_le hmj with h | h
        · have hfin : (⟨j, hj⟩ : Fin l.length) = ⟨(f + t) / 2, hm⟩ :=
            by rw [Fin.mk.injEq]; omega
          rw [hfin]
          exact not_lt_of_gt hkp
        · have := hp ⟨(f + t) / 2, hm⟩ ⟨j, hj⟩ h
          exact not_lt_of_gt (lt_trans hkp this)
      · rename_i hkp
        have hpk : key (l.get ⟨(f + t) / 2, hm⟩) < k := by
          rcases lt_trichotomy (key (l.get ⟨(f + t) / 2, hm⟩)) k with h | h | h
          · exact h
          · exact absurd h hne
          · exact absurd h hkp
        refine posAux_spec key k l ((f + t) / 2 + 1) t ht hs ?_ hhi
        intro j hj hjm
        rcases Nat.lt_or_ge j ((f + t) / 2) with h | h
        · exact lt_trans (hp ⟨j, hj⟩ ⟨(f + t) / 2, hm⟩ h) hpk
        · have hfin : (⟨j, hj⟩ : Fin l.length) = ⟨(f + t) / 2, hm⟩ :=
            by rw [Fin.mk.injEq]; omega
          rw [hfin]
          exact hpk
  · rename_i hf
    constructor
    · intro j hj hjf
      exact hlo j hj hjf
    · intro j hj hjf
      exact hhi j hj (by omega)
termination_by t - f
decreasing_by
  all_goals omega

theorem pos_le_length (key : α → κ) (l : List α) (x : α) :
    SortedListSet.pos key l x ≤ l.length :=
  posAux_le key (key x) l 0 l.length (le_refl _) (Nat.zero_le _)

/-- Specification of `_pos` on a strictly key-sorted list. -/
theorem pos_spec (key : α → κ) (l : List α) (x : α) (hs : KeySorted key l) :
    (∀ j, (hj : j < l.length) → j < SortedListSet.pos key l x →
      key (l.get ⟨j, hj⟩) < key x) ∧
    (∀ j, (hj : j < l.length) → SortedListSet.pos key l x ≤ j →
      ¬ key (l.get ⟨j, hj⟩) < key x) :=
  posAux_spec key (key x) l 0 l.length (le_refl _) hs
    (fun _ _ h => absurd h (Nat.not_lt_zero _))
    (fun j hj h => absurd hj (by omega))

end SortedListSetProofs

section ConstructorModel

variable {α : Type} {κ : Type} [DecidableEq α] [LinearOrder κ]

instance keyleDecidable (key : α → κ) :
    DecidableRel (fun a b : α => key a ≤ key b) := fun a b =>
  inferInstanceAs (Decidable (key a ≤ key b))

/-- The `self._list.sort(key = self._key)` call of `SortedListSet.__init__`
(sets.py line 164): a sort by the key function. -/
def sortByKey (key : α → κ) (l : List α) : List α :=
  l.insertionSort (fun a b => key a ≤ key b)

/-- The deduplication loop of `SortedListSet.__init__` (sets.py lines
165-173).  The loop variable `last` always equals `self._list[i-1]`
(initially `i = 1`, `last = self._list[0]`; both branches re-establish it),
so it is inlined here: on an adjacent equal key the earlier element
(`i -= 1; del self._list[i]`) is removed and `i` is retained, otherwise `i`
advances. -/
def dedupFrom (key : α → κ) (l : List α) (i : Nat) : List α :=
  if h : i < l.length then
    if key (l.get ⟨i - 1, by omega⟩) = key (l.get ⟨i, h⟩) then
      dedupFrom key (l.eraseIdx (i - 1)) i
    else
      dedupFrom key l (i + 1)
  else l
termination_by l.length - i
decreasing_by
  · have hi : i - 1 < l.length := by omega
    rw [List.length_eraseIdx, if_pos hi]
    omega
  · omega

/-- Structural restatement of the deduplication loop: keep the last element
of every run of adjacent equal keys. -/
def dedupAdj (key : α → κ) : List α → List α
  | [] => []
  | [a] => [a]
  | a :: b :: t =>
    if key a = key b then dedupAdj key (b :: t) else a :: dedupAdj key (b :: t)

theorem get_append_mid (pre : List α) (a : α) (suf : List α)
    (h : pre.length < (pre ++ a :: suf).length) :
    (pre ++ a :: suf).get ⟨pre.length, h⟩ = a := by
  simp [List.get_eq_getElem]
  rw [List.getElem_append_right (le_refl _)]
  simp

theorem get_append_mid1 (pre : List α) (a b : α) (t : List α)
    (h : pre.length + 1 < (pre ++ a :: b :: t).length) :
    (pre ++ a :: b :: t).get ⟨pre.length + 1, h⟩ = b := by
  simp [List.get_eq_getElem]
  rw [List.getElem_append_right (by omega)]
  simp

theorem eraseIdx_append_mid (pre : List α) (a : α) (suf : List α) :
    (pre ++ a :: suf).eraseIdx pre.length = pre ++ suf := by
  induction pre with
  | nil => rfl
  | cons x xs ih => simpa using ih

/-- The imperative deduplication loop agrees with the structural one. -/
theorem dedupFrom_eq_adj (key : α → κ) :
    ∀ (suf pre : List α) (a : α),
      dedupFrom key (pre ++ a :: suf) (pre.length + 1) =
        pre ++ dedupAdj key (a :: suf)
  | [], pre, a => by
    rw [dedupFrom, dif_neg (by simp)]
    rfl
  | b :: t, pre, a => by
    have hlen : pre.length + 1 < (pre ++ a :: b :: t).length := by
      simp
    rw [dedupFrom, dif_pos hlen]
    simp only [Nat.add_sub_cancel]
    rw [get_append_mid, get_append_mid1, eraseIdx_append_mid]
    by_cases hab : key a = key b
    · rw [if_pos hab, dedupFrom_eq_adj key t pre b]
      simp [dedupAdj, hab]
    · rw [if_neg hab]
      have h2 : pre ++ a :: b :: t = (pre ++ [a]) ++ b :: t := by simp
      have h3 : pre.length + 1 + 1 = (pre ++ [a]).length + 1 := by simp
      rw [h2, h3, dedupFrom_eq_adj key t (pre ++ [a]) b]
      simp [dedupAdj, hab]

theorem dedupAdj_subset (key : α → κ) :
    ∀ l : List α, ∀ x ∈ dedupAdj key l, x ∈ l
  | [], x, hx => by simp [dedupAdj] at hx
  | [a], x, hx => by simpa [dedupAdj] using hx
  | a :: b :: t, x, hx => by
    rw [dedupAdj] at hx
    by_cases hab : key a = key b
    · rw [if_pos hab] at hx
      exact List.mem_cons_of_mem a (dedupAdj_subset key (b :: t) x hx)
    · rw [if_neg hab] at hx
      rcases List.mem_cons.mp hx with h | h
      · exact h ▸ List.mem_cons_self _ _
      · exact List.mem_cons_of_mem a (dedupAdj_subset key (b :: t) x h)

/-- Deduplicating the adjacent equal keys of a list sorted by `≤` on keys
yields a strictly key-sorted list. -/
theorem dedupAdj_sorted (key : α → κ) :
    ∀ l : List α, l.Pairwise (fun a b => key a ≤ key b) →
      KeySorted key (dedupAdj key l)
  | [], _ => List.Pairwise.nil
  | [a], _ => by
    rw [dedupAdj]
    exact List.pairwise_singleton _ _
  | a :: b :: t, h => by
    have hhead := (List.pairwise_cons.mp h).1
    have htail := (List.pairwise_cons.mp h).2
    have hbt := (List.pairwise_cons.mp htail).1
    rw [dedupAdj]
    by_cases hab : key a = key b
    · rw [if_pos hab]
      exact dedupAdj_sorted key (b :: t) htail
    · rw [if_neg hab]
      refine List.pairwise_cons.mpr ⟨?_, dedupAdj_sorted key (b :: t) htail⟩
      intro y hy
      have hyin := dedupAdj_subset key (b :: t) y hy
      have hb : key a < key b :=
        lt_of_le_of_ne (hhead b (List.mem_cons_self _ _)) hab
      rcases List.mem_cons.mp hyin with h2 | h2
      · exact h2 ▸ hb
      · exact lt_of_lt_of_le hb (hbt y h2)

/-- The list built by `SortedListSet.__init__` once its element source is
known (sets.py lines 164-173): sort by key then deduplicate. -/
def SortedListSet.initList (key : α → κ) (items : List α) : List α :=
  dedupFrom key (sortByKey key items) 1

/-- The successful constructor (sets.py lines 143-174): fills `_list` from
the element source, sorts, deduplicates, and sets `modCount = 0`. -/
def SortedListSet.ofList (key : α → κ) (items : List α) : SortedListSet α :=
  { list := SortedListSet.initList key items, modCount := 0 }

theorem sortByKey_sorted (key : α → κ) (l : List α) :
    (sortByKey key l).Pairwise fun a b => key a ≤ key b := by
  have htot : IsTotal α fun a b : α => key a ≤ key b := ⟨fun a b => le_total _ _⟩
  have htr : IsTrans α fun a b : α => key a ≤ key b :=
    ⟨fun _ _ _ h1 h2 => le_trans h1 h2⟩
  exact List.sorted_insertionSort _ l

theorem initList_sorted (key : α → κ) (items : List α) :
    KeySorted key (SortedListSet.initList key items) := by
  rw [SortedListSet.initList]
  rcases hs : sortByKey key items with _ | ⟨x, r⟩
  · rw [dedupFrom]
    simp only [List.length_nil]
    rw [dif_neg (by omega)]
    exact List.Pairwise.nil
  · have h0 : dedupFrom key (x :: r) 1 = dedupAdj key (x :: r) := by
      have := dedupFrom_eq_adj key r [] x
      simpa using this
    rw [h0]
    apply dedupAdj_sorted
    have := sortByKey_sorted key items
    rwa [hs] at this

end ConstructorModel

section MutationProofs

variable {α : Type} {κ : Type} [DecidableEq α] [LinearOrder κ]

theorem keySorted_iff_map (key : α → κ) (l : List α) :
    KeySorted key l ↔ (l.map key).Pairwise (· < ·) := by
  rw [KeySorted, List.pairwise_map]

theorem set_eq_self_of_getElem (l : List κ) (i : Nat) (x : κ)
    (h : i < l.length) (hx : x = l[i]) : l.set i x = l := by
  apply List.ext_getElem
  · simp
  · intro j h1 h2
    rw [List.getElem_set]
    split
    · simp_all
    · rfl

/-- `add` preserves the strict key-sortedness of the backing list. -/
theorem add_sorted (key : α → κ) (s : SortedListSet α) (v : α)
    (hs : KeySorted key s.list) :
    KeySorted key (SortedListSet.add key s v).list := by
  have hspec := pos_spec key s.list v hs
  have hle := pos_le_length key s.list v
  rw [SortedListSet.add]
  split
  · rename_i hlen
    have hat : SortedListSet.pos key s.list v = s.list.length := by omega
    show KeySorted key (s.list ++ [v])
    rw [KeySorted, List.pairwise_append]
    refine ⟨hs, List.pairwise_singleton _ _, ?_⟩
    intro a ha b hb
    rw [List.mem_singleton] at hb
    subst hb
    rcases List.mem_iff_get.mp ha with ⟨⟨j, hj⟩, hg⟩
    subst hg
    exact hspec.1 j hj (by omega)
  · rename_i hlen
    have hat : SortedListSet.pos key s.list v < s.list.length := by omega
    split
    · rename_i hkey
      split
      · exact hs
      · rename_i hne
        rw [List.getD_eq_getElem s.list v hat] at hkey
        rw [keySorted_iff_map] at hs ⊢
        have hmap : (s.list.set (SortedListSet.pos key s.list v) v).map key =
            s.list.map key := by
          rw [List.map_set]
          apply set_eq_self_of_getElem _ _ _ (by simpa using hat)
          rw [List.getElem_map]
          exact hkey
        rwa [hmap]
    · rename_i hkey
      rw [List.getD_eq_getElem s.list v hat] at hkey
      show KeySorted key (s.list.take (SortedListSet.pos key s.list v) ++
        v :: s.list.drop (SortedListSet.pos key s.list v))
      rw [KeySorted, List.pairwise_append]
      refine ⟨List.Pairwise.sublist (List.take_sublist _ _) hs, ?_, ?_⟩
      · refine List.pairwise_cons.mpr ⟨?_,
          List.Pairwise.sublist (List.drop_sublist _ _) hs⟩
        intro y hy
        rcases List.mem_iff_getElem.mp hy with ⟨j, hj, hg⟩
        rw [List.getElem_drop] at hg
        subst hg
        have hidx : SortedListSet.pos key s.list v ≤
            SortedListSet.pos key s.list v + j := by omega
        have hjlen : SortedListSet.pos key s.list v + j < s.list.length := by
          have := hj
          simp [List.length_drop] at this
          omega
        have h2 := hspec.2 _ hjlen hidx
        rcases lt_or_eq_of_le (not_lt.mp h2) with h3 | h3
        · exact h3
        · exfalso
          rcases Nat.eq_or_lt_of_le hidx with h4 | h4
          · have hj0 : j = 0 := by omega
            subst hj0
            simp only [Nat.add_zero] at h3 hjlen
            rw [List.get_eq_getElem] at h3
            exact hkey h3
          · have hp := List.pairwise_iff_get.mp hs ⟨_, hat⟩ ⟨_, hjlen⟩ h4
            have h5 := hspec.2 _ hat (le_refl _)
            rw [← h3] at hp
            exact h5 hp
      · intro a ha b hb
        rcases List.mem_iff_getElem.mp ha with ⟨i, hi, hg⟩
        rw [List.getElem_take] at hg
        subst hg
        have hilt : i < SortedListSet.pos key s.list v := by
          have := hi
          simp [List.length_take] at this
          omega
        have hia : i < s.list.length := by omega
        have h1 : key (s.list.get ⟨i, hia⟩) < key v := hspec.1 i hia hilt
        rcases List.mem_cons.mp hb with h2 | h2
        · subst h2
          simpa using h1
        · rcases List.mem_iff_getElem.mp h2 with ⟨j, hj, hg⟩
          rw [List.getElem_drop] at hg
          subst hg
          have hjlen : SortedListSet.pos key s.list v + j < s.list.length := by
            have := hj
            simp [List.length_drop] at this
            omega
          have h3 := hspec.2 _ hjlen (by omega)
          have h4 : key v ≤ key (s.list.get ⟨_, hjlen⟩) := not_lt.mp h3
          calc key (s.list.get ⟨i, hia⟩) < key v := by simpa using h1
            _ ≤ _ := h4

/-- `discard` preserves the strict key-sortedness of the backing list. -/
theorem discard_sorted (key : α → κ) (s : SortedListSet α) (v : α)
    (hs : KeySorted key s.list) :
    KeySorted key (SortedListSet.discard key s v).list := by
  rw [SortedListSet.discard]
  split
  · exact List.Pairwise.sublist (List.eraseIdx_sublist _ _) hs
  · exact hs

/-- A mutation step of the set: the claims quantify over arbitrary
sequences of `add` and `discard` calls. -/
inductive SetOp (α : Type) where
  | addOp (v : α)
  | discardOp (v : α)

/-- Apply one mutation to the set state. -/
def SortedListSet.applyOp (key : α → κ) (s : SortedListSet α) :
    SetOp α → SortedListSet α
  | .addOp v => SortedListSet.add key s v
  | .discardOp v => SortedListSet.discard key s v

/-- Apply a sequence of mutations to the set state. -/
def SortedListSet.run (key : α → κ) (s : SortedListSet α)
    (ops : List (SetOp α)) : SortedListSet α :=
  ops.foldl (SortedListSet.applyOp key) s

theorem run_sorted (key : α → κ) (s : SortedListSet α) (ops : List (SetOp α))
    (hs : KeySorted key s.list) :
    KeySorted key (SortedListSet.run key s ops).list := by
  induction ops generalizing s with
  | nil => exact hs
  | cons op ops ih =>
    rw [SortedListSet.run, List.foldl_cons]
    apply ih
    cases op with
    | addOp v => exact add_sorted key s v hs
    | discardOp v => exact discard_sorted key s v hs

/-- `SortedListSet.__len__` (sets.py lines 271-272): `len(self._list)`. -/
def SortedListSet.len (s : SortedListSet α) : Nat :=
  s.list.length

/-- State of `SortedListSet.Iterator` (sets.py lines 322-332): the snapshot
`self._modCount` taken at creation and the slice `set_._list[from_: to_]`
the source builds its inner iterator from (a Python slice copies, so later
list mutations do not change `rest`; only the counter check observes them). -/
structure SLSIterator (α : Type) where
  savedMod : Nat
  rest : List α
deriving DecidableEq, Repr

/-- The `from_` index computation of `SortedListSet.iter` (sets.py line
318): `0 if from_ is None else self._pos(from_)`. -/
def SortedListSet.iterFromIdx (key : α → κ) (s : SortedListSet α)
    (fr : Option α) : Nat :=
  match fr with
  | none => 0
  | some x => SortedListSet.pos key s.list x

/-- The `to_` index computation of `SortedListSet.iter` (sets.py line 319):
`len(self._list) if to_ is None else self._pos(to_)`. -/
def SortedListSet.iterToIdx (key : α → κ) (s : SortedListSet α)
    (to_ : Option α) : Nat :=
  match to_ with
  | none => s.list.length
  | some x => SortedListSet.pos key s.list x

/-- `SortedListSet.iter` (sets.py lines 274-320): compute both indices and
build an iterator over the slice `_list[fromIndex: toIndex]`. -/
def SortedListSet.iter (key : α → κ) (s : SortedListSet α)
    (fr to_ : Option α) : SLSIterator α :=
  { savedMod := s.modCount,
    rest := (s.list.take (SortedListSet.iterToIdx key s to_)).drop
      (SortedListSet.iterFromIdx key s fr) }

/-- Possible outcomes of `Iterator.__next__` (sets.py lines 329-332):
`modified` is the `RuntimeError` raised when the snapshot counter differs
from the set's current counter, `stop` is `StopIteration`, and `yield`
returns the next element. -/
inductive NextRes (α : Type) where
  | modified
  | stop
  | yield (a : α) (rest : List α)
deriving DecidableEq, Repr

/-- `Iterator.__next__` (sets.py lines 329-332), taking the current state
of the underlying set as an argument. -/
def SortedListSet.next (it : SLSIterator α) (cur : SortedListSet α) :
    NextRes α :=
  if it.savedMod ≠ cur.modCount then .modified
  else
    match it.rest with
    | [] => .stop
    | a :: r => .yield a r

/-- C7: after constructing a `SortedListSet` from any element list and
applying any sequence of `add`/`discard` operations, the backing list is in
strictly ascending key order with no duplicate keys (`KeySorted`), iterating
the whole set yields exactly the backing list, and the reported length
equals the backing list's length. -/
theorem C7_order_invariant (key : α → κ) (items : List α)
    (ops : List (SetOp α)) :
    KeySorted key (SortedListSet.run key (SortedListSet.ofList key items) ops).list ∧
    (SortedListSet.iter key (SortedListSet.run key (SortedListSet.ofList key items) ops)
      none none).rest =
      (SortedListSet.run key (SortedListSet.ofList key items) ops).list ∧
    SortedListSet.len (SortedListSet.run key (SortedListSet.ofList key items) ops) =
      (SortedListSet.run key (SortedListSet.ofList key items) ops).list.length := by
  refine ⟨?_, ?_, rfl⟩
  · exact run_sorted key _ ops (initList_sorted key items)
  · rw [SortedListSet.iter]
    simp [SortedListSet.iterToIdx, SortedListSet.iterFromIdx]

end MutationProofs

section ReplaceProofs

variable {α : Type} {κ : Type} [DecidableEq α] [LinearOrder κ]

/-- The binary search depends on the backing list only through the list of
keys (the length and every pivot key). -/
theorem posAux_congr (key1 key2 : α → κ) (k : κ) (l1 l2 : List α)
    (hm : l1.map key1 = l2.map key2) (f t1 t2 : Nat) (hteq : t1 = t2)
    (ht1 : t1 ≤ l1.length) (ht2 : t2 ≤ l2.length) :
    SortedListSet.posAux key1 k l1 f t1 ht1 =
      SortedListSet.posAux key2 k l2 f t2 ht2 := by
  subst hteq
  have hlen : l1.length = l2.length := by
    simpa using congrArg List.length hm
  conv_lhs => rw [SortedListSet.posAux]
  conv_rhs => rw [SortedListSet.posAux]
  by_cases hf : f < t1
  · rw [dif_pos hf, dif_pos hf]
    have hm1 : (f + t1) / 2 < l1.length := by omega
    have hm2 : (f + t1) / 2 < l2.length := by omega
    have hpiv : key1 (l1.get ⟨(f + t1) / 2, hm1⟩) =
        key2 (l2.get ⟨(f + t1) / 2, hm2⟩) := by
      have h1 : (l1.map key1).get? ((f + t1) / 2) =
          (l2.map key2).get? ((f + t1) / 2) := by
        rw [hm]
      rw [List.get?_eq_get (by simpa using hm1),
          List.get?_eq_get (by simpa using hm2)] at h1
      simp only [List.get_eq_getElem, List.getElem_map,
        Option.some.injEq] at h1
      simpa [List.get_eq_getElem] using h1
    rw [hpiv]
    by_cases he : key2 (l2.get ⟨(f + t1) / 2, hm2⟩) = k
    · rw [if_pos he, if_pos he]
    · rw [if_neg he, if_neg he]
      by_cases hlt : k < key2 (l2.get ⟨(f + t1) / 2, hm2⟩)
      · rw [if_pos hlt, if_pos hlt]
        exact posAux_congr key1 key2 k l1 l2 hm f _ _ rfl (by omega) (by omega)
      · rw [if_neg hlt, if_neg hlt]
        exact posAux_congr key1 key2 k l1 l2 hm _ t1 t1 rfl ht1 (by omega)
  · rw [dif_neg hf, dif_neg hf]
termination_by t1 - f
decreasing_by
  all_goals omega

theorem pos_congr (key : α → κ) (l1 l2 : List α) (x y : α)
    (hm : l1.map key = l2.map key) (hk : key x = key y) :
    SortedListSet.pos key l1 x = SortedListSet.pos key l2 y := by
  have hlen : l1.length = l2.length := by
    simpa using congrArg List.length hm
  rw [SortedListSet.pos, SortedListSet.pos, hk]
  exact posAux_congr key key (key y) l1 l2 hm 0 l1.length l2.length hlen
    (le_refl _) (le_refl _)

/-- C8: if `s` contains `a` and `key a == key b`, then adding `b` is a
no-op when `b == a` (contents and `modCount` both unchanged), and otherwise
replaces `a` by `b` in place: the length is unchanged, `b` becomes present,
`a` is no longer present, and `modCount` grows by one. -/
theorem C8_add_replace_semantics (key : α → κ) (s : SortedListSet α)
    (a b : α) (ha : SortedListSet.contains key s.list a = true)
    (hk : key a = key b) :
    (b = a → SortedListSet.add key s b = s) ∧
    (b ≠ a →
      (SortedListSet.add key s b).list.length = s.list.length ∧
      SortedListSet.contains key (SortedListSet.add key s b).list b = true ∧
      SortedListSet.contains key (SortedListSet.add key s b).list a = false ∧
      (SortedListSet.add key s b).modCount = s.modCount + 1) := by
  rw [SortedListSet.contains] at ha
  split at ha
  case isFalse => simp at ha
  case isTrue hlt =>
  rw [decide_eq_true_eq] at ha
  have hpos : SortedListSet.pos key s.list b = SortedListSet.pos key s.list a :=
    pos_congr key s.list s.list b a rfl hk.symm
  have hblt : SortedListSet.pos key s.list b < s.list.length := by omega
  have hgetd : s.list.getD (SortedListSet.pos key s.list b) b =
      s.list.get ⟨SortedListSet.pos key s.list a, hlt⟩ := by
    rw [List.getD_eq_getElem s.list b hblt]
    rw [List.get_eq_getElem]
    congr 1
  have hkey2 : key b = key (s.list.getD (SortedListSet.pos key s.list b) b) := by
    rw [hgetd, ha, hk]
  constructor
  · intro hba
    subst hba
    rw [SortedListSet.add, if_neg (by omega), if_pos hkey2, if_pos (by rw [hgetd, ha])]
  · intro hba
    have hne : ¬ s.list.getD (SortedListSet.pos key s.list b) b = b := by
      rw [hgetd, ha]
      exact fun h => hba h.symm
    rw [SortedListSet.add, if_neg (by omega), if_pos hkey2, if_neg hne, hpos]
    have hka : key (s.list.get ⟨SortedListSet.pos key s.list a, hlt⟩) =
        key a := by
      rw [ha]
    have hmap : (s.list.set (SortedListSet.pos key s.list a) b).map key =
        s.list.map key := by
      rw [List.map_set]
      apply set_eq_self_of_getElem _ _ _ (by simpa using hlt)
      rw [List.getElem_map]
      exact (hka.trans hk).symm
    have hposb : SortedListSet.pos key
        (s.list.set (SortedListSet.pos key s.list a) b) b =
        SortedListSet.pos key s.list a := by
      rw [pos_congr key _ s.list b b hmap rfl, hpos]
    have hposa : SortedListSet.pos key
        (s.list.set (SortedListSet.pos key s.list a) b) a =
        SortedListSet.pos key s.list a :=
      pos_congr key _ s.list a a hmap rfl
    refine ⟨by simp, ?_, ?_, rfl⟩
    · dsimp only
      rw [SortedListSet.contains]
      split
      case isFalse hc =>
        rw [hposb, List.length_set] at hc
        omega
      case isTrue hc =>
        simp only [List.get_eq_getElem, hposb]
        rw [List.getElem_set, if_pos rfl]
        exact decide_eq_true rfl
    · dsimp only
      rw [SortedListSet.contains]
      split
      case isFalse hc => rfl
      case isTrue hc =>
        simp only [List.get_eq_getElem, hposa]
        rw [List.getElem_set, if_pos rfl]
        exact decide_eq_false hba

end ReplaceProofs

section ConcreteKeys

/-- Identity key function on integers, standing in for a concrete shared
key callable (the default `lambda x: x` of the source, passed explicitly to
both operands so the instances share it). -/
def intKey : Int → Int := fun x => x

/-- First-component key on integer pairs: a key function that is not
injective on elements, so distinct elements can share a key. -/
def pairKey : Int × Int → Int := Prod.fst

/-- C3: adding `1` to an empty set takes the append branch of `add`
(position `0` is past the end of the empty backing list).  The element is
appended but `modCount` stays `0`: the source increments the counter in the
replace and insert branches only, never in the append branch, contradicting
the claim that an append always increments it. -/
theorem C3_append_leaves_modCount_unchanged :
    SortedListSet.add intKey ⟨[], 0⟩ (1 : Int) =
      ⟨[1], 0⟩ := by
  simp [SortedListSet.add, SortedListSet.pos, SortedListSet.posAux]

/-- C4: create an iterator over `{1}`, then `add 2` (an append, a
structural change), then advance the iterator.  Because the append branch
leaves `modCount` at `0`, the advance does not raise the
concurrent-modification error; it silently yields `1`. -/
theorem C4_append_not_seen_by_iterator :
    (SortedListSet.add intKey ⟨[1], 0⟩ (2 : Int)).list = [1, 2] ∧
    (SortedListSet.add intKey ⟨[1], 0⟩ (2 : Int)).modCount = 0 ∧
    SortedListSet.next (SortedListSet.iter intKey ⟨[1], 0⟩ none none)
      (SortedListSet.add intKey ⟨[1], 0⟩ (2 : Int)) = NextRes.yield 1 [] := by
  refine ⟨?_, ?_, ?_⟩ <;>
    simp [SortedListSet.add, SortedListSet.pos, SortedListSet.posAux,
      SortedListSet.next, SortedListSet.iter, SortedListSet.iterFromIdx,
      SortedListSet.iterToIdx, intKey]

/-- C10: whenever the computed insertion index for `from_` is at least the
one computed for `to_`, `iter` succeeds and the iterator yields nothing:
its slice is empty and every advance reports plain exhaustion (Python
`StopIteration`), not an error. -/
theorem C10_degenerate_range_yields_nothing {α : Type} {κ : Type}
    [DecidableEq α] [LinearOrder κ] (key : α → κ) (s : SortedListSet α)
    (fr to_ : Option α)
    (h : SortedListSet.iterToIdx key s to_ ≤ SortedListSet.iterFromIdx key s fr) :
    (SortedListSet.iter key s fr to_).rest = [] ∧
    SortedListSet.next (SortedListSet.iter key s fr to_) s = NextRes.stop := by
  have hr : (SortedListSet.iter key s fr to_).rest = [] := by
    rw [SortedListSet.iter]
    apply List.drop_eq_nil_of_le
    calc (s.list.take (SortedListSet.iterToIdx key s to_)).length
        ≤ SortedListSet.iterToIdx key s to_ := by
          rw [List.length_take]
          omega
      _ ≤ SortedListSet.iterFromIdx key s fr := h
  refine ⟨hr, ?_⟩
  rw [SortedListSet.next, if_neg (by simp [SortedListSet.iter]), hr]

/-- Witness for C10 at a concrete input: in the set `{1, 2}` the bound
`from_ = 5` is positioned past every element (index `2`) while `to_ = 0`
is positioned at index `0`, and the iterator yields nothing. -/
theorem C10_degenerate_range_witness :
    SortedListSet.iterToIdx intKey ⟨[1, 2], 0⟩ (some 0) ≤
      SortedListSet.iterFromIdx intKey ⟨[1, 2], 0⟩ (some 5) ∧
    ((SortedListSet.iter intKey ⟨[1, 2], 0⟩ (some 5) (some 0)).rest = [] ∧
     SortedListSet.next (SortedListSet.iter intKey ⟨[1, 2], 0⟩ (some 5) (some 0))
       ⟨[1, 2], 0⟩ = NextRes.stop) := by
  have h : SortedListSet.iterToIdx intKey ⟨[1, 2], 0⟩ (some 0) ≤
      SortedListSet.iterFromIdx intKey ⟨[1, 2], 0⟩ (some 5) := by
    simp [SortedListSet.iterToIdx, SortedListSet.iterFromIdx,
      SortedListSet.pos, SortedListSet.posAux, intKey]
  exact ⟨h, C10_degenerate_range_yields_nothing intKey ⟨[1, 2], 0⟩
    (some 5) (some 0) h⟩

/-- Witness for C8 at a concrete input: the set `{(1, 10)}` under the
first-component key, with `a = (1, 10)` present and `b = (1, 20)` sharing
its key. -/
theorem C8_add_replace_witness :
    SortedListSet.contains pairKey [((1 : Int), (10 : Int))] (1, 10) = true ∧
    pairKey (1, 10) = pairKey (1, 20) ∧
    ((((1 : Int), (20 : Int)) = ((1 : Int), (10 : Int)) →
        SortedListSet.add pairKey ⟨[(1, 10)], 0⟩ (1, 20) = ⟨[(1, 10)], 0⟩) ∧
     (((1 : Int), (20 : Int)) ≠ ((1 : Int), (10 : Int)) →
        (SortedListSet.add pairKey ⟨[(1, 10)], 0⟩ (1, 20)).list.length =
          ([((1 : Int), (10 : Int))] : List (Int × Int)).length ∧
        SortedListSet.contains pairKey
          (SortedListSet.add pairKey ⟨[(1, 10)], 0⟩ (1, 20)).list (1, 20) = true ∧
        SortedListSet.contains pairKey
          (SortedListSet.add pairKey ⟨[(1, 10)], 0⟩ (1, 20)).list (1, 10) = false ∧
        (SortedListSet.add pairKey ⟨[(1, 10)], 0⟩ (1, 20)).modCount = 0 + 1)) := by
  have ha : SortedListSet.contains pairKey [((1 : Int), (10 : Int))] (1, 10) =
      true := by
    simp [SortedListSet.contains, SortedListSet.pos, SortedListSet.posAux,
      pairKey]
  exact ⟨ha, rfl,
    C8_add_replace_semantics pairKey ⟨[(1, 10)], 0⟩ (1, 10) (1, 20) ha rfl⟩

end ConcreteKeys

section ComparisonModel

variable {α : Type} {κ : Type} [DecidableEq α] [LinearOrder κ]

/-- Error outcomes of the embedded fallible operations, by Python exception
class.  `typeError` is raised by `%`-formatting a literal that has no
conversion specifier with a non-tuple, non-mapping argument;
`valueErrorSize` carries the declared and actual element counts reported by
the constructor's size check. -/
inductive PyErr where
  | indexError
  | typeError
  | valueErrorSize (declared actual : Nat)
  | valueErrorConflict
  | keyErrorConflict
deriving DecidableEq, Repr

/-- The skip loop inside the linear co-scan of `SortedListSet.__le__`
(sets.py lines 248-252): `while i < len(other._list): if mykey >
self._key(other._list[i]): i += 1 else: break`; returns the final `i`. -/
def coScanSkip (key : α → κ) (mykey : κ) (ol : List α) (i : Nat) : Nat :=
  if h : i < ol.length then
    if key (ol.get ⟨i, h⟩) < mykey then coScanSkip key mykey ol (i + 1) else i
  else i
termination_by ol.length - i
decreasing_by
  omega

/-- The linear co-scan of `SortedListSet.__le__` (sets.py lines 237-255),
iterating over `self._list` with cursor `i` into `other._list`.  `none`
models the `IndexError` the loop head raises when it evaluates
`other._list[i]` with `i` already past the end (reachable in the source,
e.g. `[2, 5, 7]` against `[0, 1, 5]`). -/
def coScan (key : α → κ) (l ol : List α) (i : Nat) : Option Bool :=
  match l with
  | [] => some true
  | item :: rest =>
    if h : i < ol.length then
      if item = ol.get ⟨i, h⟩ then coScan key rest ol (i + 1)
      else if key item ≤ key (ol.get ⟨i, h⟩) then some false
      else
        if ol.length ≤ coScanSkip key (key item) ol (i + 1) then some false
        else coScan key rest ol (coScanSkip key (key item) ol (i + 1))
    else none

/-- The generic library fallback `collections.MutableSet.__le__(self,
other)`: `False` when the left operand is larger, else a per-element
membership loop, membership being the right operand's `__contains__`
(binary search under the right operand's key `okey`). -/
def genericLE (okey : α → κ) (l ol : List α) : Bool :=
  if ol.length < l.length then false
  else l.all fun x => SortedListSet.contains okey ol x

/-- `SortedListSet.__le__` (sets.py lines 227-255) for two instances that
share one key function (the premise of claim C1), so the
`self._key != other._key` disjunct of line 234 is `False`.  The
floating-point test `2 * len_ * math.log(olen) / self._log2base < olen` is
abstracted as the boolean `bigFallback`: Python short-circuits it behind
`100 < olen`, and the theorem below quantifies over both values, so its
outcome decides nothing here. -/
def SortedListSet.le (key : α → κ) (l ol : List α) (bigFallback : Bool) :
    Option Bool :=
  if ol.length < l.length then some false
  else if 100 < ol.length && bigFallback then some (genericLE key l ol)
  else coScan key l ol 0

/-- The brute-force subset check in the words of the spec (claim C1): a
per-element membership test of the left operand's elements in the right
operand. -/
def specBruteSubset (key : α → κ) (l ol : List α) : Bool :=
  l.all fun x => SortedListSet.contains key ol x

/-- C1 fails on the code: for the key-sorted sets `{2}` and `{1, 3}` under
the shared identity key, the optimized `<=` takes the linear co-scan
(sizes below the threshold, whatever the abstracted float test says) and
returns `True`, while the brute-force membership test correctly reports
that `2` is not a member of `{1, 3}`.  The co-scan's skip loop stops at key
`3 ≥ 2` and the source then moves to the next element of `self` without
ever checking that the current element was matched. -/
theorem C1_coscan_disagrees_with_bruteforce :
    (∀ b : Bool, SortedListSet.le intKey [2] [1, 3] b = some true) ∧
    specBruteSubset intKey [2] [1, 3] = false ∧
    KeySorted intKey [2] ∧ KeySorted intKey [1, 3] := by
  refine ⟨?_, ?_, ?_, ?_⟩
  · intro b
    simp [SortedListSet.le, coScan, coScanSkip, intKey]
  · simp [specBruteSubset, SortedListSet.contains, SortedListSet.pos,
      SortedListSet.posAux, intKey]
  · simp [KeySorted]
  · simp [KeySorted, intKey]

/-- `SortedListSet.__eq__` (sets.py lines 257-266).  `keysMatch` models the
`isinstance(other, SortedListSet)` conjoined with `self._key == other._key`
(Python compares the two key callables as objects; two sets built with the
default `key=None` hold two distinct `lambda` objects, so the test fails
for them).  When it fails the source returns
`collections.MutableSet.__le__(self, other)` — the generic subset test —
as the result of `==`.  `okey` is the right operand's key function, used by
its `__contains__` inside that fallback. -/
def SortedListSet.eq (keysMatch : Bool) (key okey : α → κ) (l ol : List α) :
    Bool :=
  if !keysMatch then genericLE okey l ol
  else if l.length ≠ ol.length then false
  else (l.zip ol).all fun p => p.1 = p.2

/-- Generic set equality in the words of the spec (claim C5): equal sizes
and mutual membership. -/
def specGenericSetEq (key okey : α → κ) (l ol : List α) : Bool :=
  decide (l.length = ol.length) &&
  (l.all fun x => SortedListSet.contains okey ol x) &&
  (ol.all fun x => SortedListSet.contains key l x)

/-- C5 fails on the code: comparing `{1} == {1, 2}` where the two operands
do not share a key-function object (e.g. both were built with the default
key, two distinct lambdas), `__eq__` falls back to the generic *subset*
test and returns `True`, while generic set equality (equal sizes and
mutual membership) is `False`. -/
theorem C5_eq_fallback_is_subset_not_equality :
    SortedListSet.eq false intKey intKey [1] [1, 2] = true ∧
    specGenericSetEq intKey intKey [1] [1, 2] = false := by
  constructor
  · simp [SortedListSet.eq, genericLE, SortedListSet.contains,
      SortedListSet.pos, SortedListSet.posAux, intKey]
  · simp [specGenericSetEq]

/-- The size-checked fill of `SortedListSet.__init__` for a sized iterable
(sets.py lines 150-160).  The source preallocates `[None] * reported` and
assigns by index while iterating: producing an element when the buffer is
already full raises `IndexError` at `self._list[i] = item` (before any size
check runs), while finishing with `i < reported` raises the `ValueError`
naming the declared (`len(self._list)`) and actual (`i`) counts. -/
def initSizedFill (reported : Nat) (items : List α) :
    Except PyErr (List α) :=
  if reported < items.length then .error .indexError
  else if items.length < reported then
    .error (.valueErrorSize reported items.length)
  else .ok items

/-- `SortedListSet.__init__` from a sized iterable that reports `reported`
elements but actually produces `items` (sets.py lines 143-174): on a
successful fill the list is sorted, deduplicated and `modCount` set to 0. -/
def SortedListSet.initSized (key : α → κ) (reported : Nat)
    (items : List α) : Except PyErr (SortedListSet α) :=
  (initSizedFill reported items).map fun l => SortedListSet.ofList key l

/-- C6 fails on the code in one direction: an iterable reporting 3 elements
but producing only 2 does get the claimed value error naming declared and
actual counts, but an iterable reporting 1 element while producing 2
crashes with `IndexError` at the out-of-range buffer write, before the
size check that would raise the documented `ValueError`. -/
theorem C6_size_mismatch_eval :
    SortedListSet.initSized intKey 3 [4, 7] =
      .error (.valueErrorSize 3 2) ∧
    SortedListSet.initSized intKey 1 [4, 7] = .error .indexError :=
  ⟨rfl, rfl⟩

end ComparisonModel

section MappingModel

variable {K V : Type} [DecidableEq K] [DecidableEq V]

/-- State of a `OneToOneMap` (mapping.py): the two backing dicts
`_forward` and `_reverse`, modelled as association lists in insertion
order with unique keys (Python dict semantics).  The peer instance of the
source holds the same two stores swapped (`__init__`, mapping.py lines
198-201), so it is determined by this state and needs no separate
representation. -/
structure OneToOneMap (K V : Type) where
  fwd : List (K × V)
  rev : List (V × K)
deriving DecidableEq, Repr

/-- Python `dict` lookup on an association list with unique keys: the
value of the first (only) entry carrying the given key. -/
def dictGet (d : List (K × V)) (k : K) : Option V :=
  (d.find? fun p => decide (p.1 = k)).map fun p => p.2

/-- Python `key in dict`. -/
def dictHas (d : List (K × V)) (k : K) : Bool :=
  d.any fun p => decide (p.1 = k)

/-- Python `d[k] = v`: replace the value of the existing entry in place,
keeping its position, or append a new entry. -/
def dictSet (d : List (K × V)) (k : K) (v : V) : List (K × V) :=
  if dictHas d k then d.map fun p => if p.1 = k then (p.1, v) else p
  else d ++ [(k, v)]

/-- `OneToOneMap.reverse` (mapping.py lines 157-179): returns the peer,
whose `_forward` is this map's `_reverse` and vice versa. -/
def OneToOneMap.reverse (m : OneToOneMap K V) : OneToOneMap V K :=
  { fwd := m.rev, rev := m.fwd }

/-- `OneToOneMap.__len__` (mapping.py lines 209-216): `len(self._forward)`
(the source also asserts that the two store sizes agree). -/
def OneToOneMap.len (m : OneToOneMap K V) : Nat :=
  m.fwd.length

/-- `OneToOneMap.__getitem__` (mapping.py lines 218-219); `none` models the
`KeyError` on a missing key. -/
def OneToOneMap.getItem (m : OneToOneMap K V) (k : K) : Option V :=
  dictGet m.fwd k

/-- Python `%`-formatting of a message literal by one non-tuple,
non-mapping argument, as evaluated inside the two `raise` statements of
`__setitem__` (mapping.py lines 232 and 239): when the literal contains no
conversion specifier (no `%` character at all, true of both literals
there), the interpreter raises `TypeError: not all arguments converted
during string formatting` instead of producing a string. -/
def pctFormatScalar (fmt : String) : Except PyErr String :=
  if ('%' : Char) ∈ fmt.toList then .ok fmt else .error .typeError

/-- The message literal of the value-conflict `raise` (mapping.py line 232). -/
def valueConflictMsg : String :=
  "Value is already mapped to another key, please delete it before mapping to "

/-- The message literal of the key-conflict `raise` (mapping.py line 239). -/
def keyConflictMsg : String :=
  "Key is already mapped to another value, please delete it before mapping to "

/-- `OneToOneMap.__setitem__` (mapping.py lines 227-243).  Each `raise`
first evaluates its arguments, `%`-formatting the message literal with
`key` (resp. `value`); since neither literal holds a conversion specifier,
that formatting itself raises `TypeError`, so the intended `ValueError`
and `KeyError` are never constructed.  Both stores are written only after
both conflict checks pass. -/
def OneToOneMap.setItem (m : OneToOneMap K V) (k : K) (v : V) :
    Except PyErr (OneToOneMap K V) :=
  if dictHas m.rev v && !(decide (dictGet m.rev v = some k)) then
    match pctFormatScalar valueConflictMsg with
    | .error e => .error e
    | .ok _ => .error .valueErrorConflict
  else if dictHas m.fwd k && !(decide (dictGet m.fwd k = some v)) then
    match pctFormatScalar keyConflictMsg with
    | .error e => .error e
    | .ok _ => .error .keyErrorConflict
  else .ok { fwd := dictSet m.fwd k v, rev := dictSet m.rev v k }

/-- The bijection invariant of a `OneToOneMap` state: both dicts have
unique keys (Python dict semantics) and each is the entry-wise inverse of
the other. -/
def OneToOneMap.Inv (m : OneToOneMap K V) : Prop :=
  (m.fwd.map Prod.fst).Nodup ∧ (m.rev.map Prod.fst).Nodup ∧
  (∀ p ∈ m.fwd, dictGet m.rev p.2 = some p.1) ∧
  (∀ p ∈ m.rev, dictGet m.fwd p.2 = some p.1)

/-- C2 fails on the code: with `{2: 5}` stored, the assignment `m[1] = 5`
(value already owned by key `2`) raises `TypeError`, not the claimed
`ValueError`, because the `%`-formatting of the message inside the `raise`
blows up first; likewise `m[2] = 7` (key already owned by value `5`)
raises `TypeError` instead of `KeyError`.  The redundant re-assignment
`m[2] = 5` is accepted and leaves both stores unchanged, and the failing
assignments change nothing since the `raise` precedes both writes. -/
theorem C2_conflict_raises_typeerror :
    OneToOneMap.setItem (⟨[(2, 5)], [(5, 2)]⟩ : OneToOneMap Int Int) 1 5 =
      .error .typeError ∧
    OneToOneMap.setItem (⟨[(2, 5)], [(5, 2)]⟩ : OneToOneMap Int Int) 2 7 =
      .error .typeError ∧
    OneToOneMap.setItem (⟨[(2, 5)], [(5, 2)]⟩ : OneToOneMap Int Int) 2 5 =
      .ok ⟨[(2, 5)], [(5, 2)]⟩ := by
  refine ⟨?_, ?_, ?_⟩ <;>
    simp [OneToOneMap.setItem, dictHas, dictGet, dictSet, pctFormatScalar,
      valueConflictMsg, keyConflictMsg]

end MappingModel

section MappingProofs

variable {K V : Type} [DecidableEq K] [DecidableEq V]

theorem dictGet_mem {d : List (K × V)} {k : K} {v : V}
    (h : dictGet d k = some v) : (k, v) ∈ d := by
  rw [dictGet] at h
  rcases hf : d.find? fun p => decide (p.1 = k) with _ | p
  · rw [hf] at h
    simp at h
  · rw [hf] at h
    simp at h
    have hp1 : p.1 = k := by
      have := List.find?_some hf
      simpa using this
    have hmem := List.mem_of_find?_eq_some hf
    have : p = (k, v) := by
      rcases p with ⟨p1, p2⟩
      simp_all
    rwa [this] at hmem

theorem keyUnique {d : List (K × V)} (hnd : (d.map Prod.fst).Nodup)
    {p q : K × V} (hp : p ∈ d) (hq : q ∈ d) (heq : p.1 = q.1) : p = q := by
  induction d with
  | nil => simp at hp
  | cons e rest ih =>
    rw [List.map_cons, List.nodup_cons] at hnd
    rcases List.mem_cons.mp hp with hip | hip <;>
      rcases List.mem_cons.mp hq with hiq | hiq
    · rw [hip, hiq]
    · exfalso
      apply hnd.1
      rw [← hip, heq]
      exact List.mem_map_of_mem Prod.fst hiq
    · exfalso
      apply hnd.1
      rw [← hiq, ← heq]
      exact List.mem_map_of_mem Prod.fst hip
    · exact ih hnd.2 hip hiq

theorem mem_dictGet {d : List (K × V)} (hnd : (d.map Prod.fst).Nodup)
    {k : K} {v : V} (h : (k, v) ∈ d) : dictGet d k = some v := by
  have hsome : ((d.find? fun p => decide (p.1 = k)).isSome) = true := by
    rw [List.find?_isSome]
    exact ⟨(k, v), h, by simp⟩
  rcases hf : d.find? fun p => decide (p.1 = k) with _ | q
  · rw [hf] at hsome
    simp at hsome
  · have hq1 : q.1 = k := by
      have := List.find?_some hf
      simpa using this
    have hqm := List.mem_of_find?_eq_some hf
    have : q = (k, v) := keyUnique hnd hqm h (by simp [hq1])
    rw [dictGet, hf, this]
    rfl

theorem dictGet_none {d : List (K × V)} {k : K}
    (h : dictHas d k = false) : dictGet d k = none := by
  rw [dictGet, List.find?_eq_none.mpr]
  · rfl
  · intro p hp
    rw [dictHas] at h
    have := (List.any_eq_false).mp h p hp
    simpa using this

theorem dictHas_of_dictGet {d : List (K × V)} {k : K} {v : V}
    (h : dictGet d k = some v) : dictHas d k = true := by
  rw [dictHas, List.any_eq_true]
  exact ⟨(k, v), dictGet_mem h, by simp⟩

theorem dictGet_append_left {d d2 : List (K × V)} {k : K} {v : V}
    (h : dictGet d k = some v) : dictGet (d ++ d2) k = some v := by
  rw [dictGet] at h ⊢
  rw [List.find?_append]
  rcases hf : d.find? fun p => decide (p.1 = k) with _ | p
  · rw [hf] at h
    simp at h
  · rw [hf] at h
    rw [hf]
    simpa using h

theorem dictGet_append_right {d d2 : List (K × V)} {k : K}
    (h : dictHas d k = false) : dictGet (d ++ d2) k = dictGet d2 k := by
  have hn : d.find? (fun p => decide (p.1 = k)) = none := by
    rw [List.find?_eq_none]
    intro p hp
    have := (List.any_eq_false).mp h p hp
    simpa using this
  rw [dictGet, List.find?_append, hn]
  rfl

theorem dictSet_append {d : List (K × V)} {k : K} (v : V)
    (h : dictHas d k = false) : dictSet d k v = d ++ [(k, v)] := by
  rw [dictSet, h]
  rfl

theorem dictSet_redundant {d : List (K × V)} (hnd : (d.map Prod.fst).Nodup)
    {k : K} {v : V} (h : dictGet d k = some v) : dictSet d k v = d := by
  rw [dictSet, dictHas_of_dictGet h, if_pos rfl]
  have : ∀ p ∈ d, (if p.1 = k then (p.1, v) else p) = p := by
    intro p hp
    by_cases hpk : p.1 = k
    · rw [if_pos hpk]
      have hpv : p = (k, v) := keyUnique hnd hp (dictGet_mem h) (by simp [hpk])
      rw [hpv]
    · rw [if_neg hpk]
  rw [List.map_congr_left this]
  simp

theorem inv_len {m : OneToOneMap K V} (h : m.Inv) :
    m.fwd.length = m.rev.length := by
  obtain ⟨hnf, hnr, hfr, hrf⟩ := h
  have hsub1 : m.fwd.map Prod.swap ⊆ m.rev := by
    intro q hq
    rcases List.mem_map.mp hq with ⟨p, hp, hpq⟩
    have := dictGet_mem (hfr p hp)
    subst hpq
    exact this
  have hsub2 : m.rev.map Prod.swap ⊆ m.fwd := by
    intro q hq
    rcases List.mem_map.mp hq with ⟨p, hp, hpq⟩
    have := dictGet_mem (hrf p hp)
    subst hpq
    exact this
  have hn1 : (m.fwd.map Prod.swap).Nodup :=
    (List.Nodup.of_map Prod.fst hnf).map Prod.swap_injective
  have hn2 : (m.rev.map Prod.swap).Nodup :=
    (List.Nodup.of_map Prod.fst hnr).map Prod.swap_injective
  have h1 := (hn1.subperm hsub1).length_le
  have h2 := (hn2.subperm hsub2).length_le
  simp at h1 h2
  omega

end MappingProofs

section BijectionClaim

variable {K V : Type} [DecidableEq K] [DecidableEq V]

/-- C9: on any map state satisfying the bijection invariant, a successful
insertion of `(k, v)` gives `m[k] == v` and `m.reverse()[v] == k`, keeps
the invariant, and the two stores have equal sizes after (and already had
equal sizes before) the insertion; `reverse` is an involution on the
state, mirroring that the source's `reverse` returns the stored peer
object (whose own peer is the original) rather than allocating. -/
theorem C9_bijection_invariants (m : OneToOneMap K V) (k : K) (v : V)
    (m2 : OneToOneMap K V) (hinv : m.Inv)
    (hok : m.setItem k v = .ok m2) :
    m2.getItem k = some v ∧
    (m2.reverse).getItem v = some k ∧
    m2.Inv ∧
    m2.len = (m2.reverse).len ∧
    m.len = (m.reverse).len ∧
    m.reverse.reverse = m := by
  rw [OneToOneMap.setItem] at hok
  split at hok
  · exfalso
    revert hok
    cases pctFormatScalar valueConflictMsg <;> intro hok <;> simp at hok
  · split at hok
    · exfalso
      revert hok
      cases pctFormatScalar keyConflictMsg <;> intro hok <;> simp at hok
    · rename_i hc1 hc2
      simp only [Bool.and_eq_true, Bool.not_eq_true', decide_eq_false_iff_not,
        not_and, Bool.not_eq_true, not_not] at hc1 hc2
      injection hok with hok
      subst hok
      obtain ⟨hnf, hnr, hfr, hrf⟩ := hinv
      by_cases hv : dictHas m.rev v = true
      · have hgv : dictGet m.rev v = some k := hc1 hv
        have hfk : dictGet m.fwd k = some v := hrf (v, k) (dictGet_mem hgv)
        have hs1 : dictSet m.fwd k v = m.fwd := dictSet_redundant hnf hfk
        have hs2 : dictSet m.rev v k = m.rev := dictSet_redundant hnr hgv
        rw [hs1, hs2]
        exact ⟨hfk, hgv, ⟨hnf, hnr, hfr, hrf⟩,
          inv_len ⟨hnf, hnr, hfr, hrf⟩, inv_len ⟨hnf, hnr, hfr, hrf⟩, rfl⟩
      · have hv2 : dictHas m.rev v = false := by simpa using hv
        have hgv : dictGet m.rev v = none := dictGet_none hv2
        have hk2 : dictHas m.fwd k = false := by
          by_cases hk : dictHas m.fwd k = true
          · exfalso
            have hfv : dictGet m.fwd k = some v := hc2 hk
            have := hfr (k, v) (dictGet_mem hfv)
            rw [hgv] at this
            simp at this
          · simpa using hk
        have hs1 : dictSet m.fwd k v = m.fwd ++ [(k, v)] := dictSet_append v hk2
        have hs2 : dictSet m.rev v k = m.rev ++ [(v, k)] := dictSet_append k hv2
        rw [hs1, hs2]
        have hg1 : dictGet (m.fwd ++ [(k, v)]) k = some v := by
          rw [dictGet_append_right hk2]
          simp [dictGet]
        have hg2 : dictGet (m.rev ++ [(v, k)]) v = some k := by
          rw [dictGet_append_right hv2]
          simp [dictGet]
        have hknotin : k ∉ m.fwd.map Prod.fst := by
          intro hmem
          rcases List.mem_map.mp hmem with ⟨p, hp, hpk⟩
          have := (List.any_eq_false).mp hk2 p hp
          simp [hpk] at this
        have hvnotin : v ∉ m.rev.map Prod.fst := by
          intro hmem
          rcases List.mem_map.mp hmem with ⟨p, hp, hpk⟩
          have := (List.any_eq_false).mp hv2 p hp
          simp [hpk] at this
        have hinv2 : OneToOneMap.Inv
            ⟨m.fwd ++ [(k, v)], m.rev ++ [(v, k)]⟩ := by
          refine ⟨?_, ?_, ?_, ?_⟩
          · simp only [List.map_append, List.map_cons, List.map_nil]
            rw [List.nodup_append]
            exact ⟨hnf, List.nodup_singleton k, by simpa using hknotin⟩
          · simp only [List.map_append, List.map_cons, List.map_nil]
            rw [List.nodup_append]
            exact ⟨hnr, List.nodup_singleton v, by simpa using hvnotin⟩
          · intro p hp
            rcases List.mem_append.mp hp with h | h
            · exact dictGet_append_left (hfr p h)
            · simp at h
              rw [h]
              exact hg2
          · intro p hp
            rcases List.mem_append.mp hp with h | h
            · exact dictGet_append_left (hrf p h)
            · simp at h
              rw [h]
              exact hg1
        exact ⟨hg1, hg2, hinv2, inv_len hinv2,
          inv_len ⟨hnf, hnr, hfr, hrf⟩, rfl⟩

end BijectionClaim

/-- Witness for C9 at a concrete input: inserting `(0, 1)` into the empty
integer map. -/
theorem C9_bijection_witness :
    OneToOneMap.Inv (⟨[], []⟩ : OneToOneMap Int Int) ∧
    OneToOneMap.setItem (⟨[], []⟩ : OneToOneMap Int Int) 0 1 =
      .ok ⟨[(0, 1)], [(1, 0)]⟩ ∧
    (OneToOneMap.getItem (⟨[(0, 1)], [(1, 0)]⟩ : OneToOneMap Int Int) 0 =
        some 1 ∧
      (OneToOneMap.reverse
          (⟨[(0, 1)], [(1, 0)]⟩ : OneToOneMap Int Int)).getItem 1 = some 0 ∧
      OneToOneMap.Inv (⟨[(0, 1)], [(1, 0)]⟩ : OneToOneMap Int Int) ∧
      OneToOneMap.len (⟨[(0, 1)], [(1, 0)]⟩ : OneToOneMap Int Int) =
        (OneToOneMap.reverse
          (⟨[(0, 1)], [(1, 0)]⟩ : OneToOneMap Int Int)).len ∧
      OneToOneMap.len (⟨[], []⟩ : OneToOneMap Int Int) =
        (OneToOneMap.reverse (⟨[], []⟩ : OneToOneMap Int Int)).len ∧
      OneToOneMap.reverse (OneToOneMap.reverse
        (⟨[], []⟩ : OneToOneMap Int Int)) = ⟨[], []⟩) := by
  have hinv : OneToOneMap.Inv (⟨[], []⟩ : OneToOneMap Int Int) := by
    simp [OneToOneMap.Inv]
  have hok : OneToOneMap.setItem (⟨[], []⟩ : OneToOneMap Int Int) 0 1 =
      .ok ⟨[(0, 1)], [(1, 0)]⟩ := rfl
  exact ⟨hinv, hok,
    C9_bijection_invariants ⟨[], []⟩ 0 1 ⟨[(0, 1)], [(1, 0)]⟩ hinv hok⟩
